import Mathlib

/-!
Verification development for the repository's artifact-acquisition tooling
(the `init` binaries that download Selenium server jars, browser drivers and
browsers before integration tests).

The development shallowly embeds:

* the semantic-version parsing and comparison the resolvers rely on
  (the vendored `blang/semver` library: `ParseTolerant`, `Parse`,
  `Version.Compare`/`GT`), modelled faithfully from that library since the
  resolvers' observable behaviour depends on it;
* the release-listing resolver `latestGitHubRelease` and the object-store
  listing resolver `latestSeleniumRelease` of the concurrent `init` binary;
* the download workers `downloadFile` of both `init` binaries, the
  postprocessing in `handleFile` and in the sequential binary's `main` loop,
  and the skip logic (`os.Stat` check, `fileSameHash`).

Effects (filesystem, network, subprocesses) are modelled by explicit inputs
(`DWorld`, `HWorld`, `VWorld`) and an event trace. Go strings are modelled as
`List Char`; all strings handled by the tool are ASCII, where Go's byte
indexing and Lean's character indexing agree.
-/

abbrev Chars := List Char

/-- Prerelease identifier of a semantic version, as in the vendored
`blang/semver` library: either numeric or alphanumeric. -/
inductive PRVersion where
  | num (n : Nat) : PRVersion
  | alpha (s : String) : PRVersion
  deriving DecidableEq

/-- Semantic version as in `blang/semver`. Build metadata is validated during
parsing but not stored here, because `Version.Compare` ignores it. -/
structure Version where
  major : Nat
  minor : Nat
  patch : Nat
  pre : List PRVersion
  deriving DecidableEq

/-- The zero value `semver.Version{}` both resolvers initialise `latest` with. -/
def semvZero : Version := ⟨0, 0, 0, []⟩

/-- `PRVersion.Compare` of `blang/semver`: numeric identifiers compare
numerically and are smaller than alphanumeric ones; alphanumeric ones compare
as strings. -/
def prCmp : PRVersion → PRVersion → Ordering
  | .num a, .num b => compare a b
  | .num _, .alpha _ => .lt
  | .alpha _, .num _ => .gt
  | .alpha a, .alpha b => compare a b

/-- Key used to restate `prCmp` as a lexicographic comparison (numeric sorts
before alphanumeric). -/
def prIsAlpha : PRVersion → Bool
  | .num _ => false
  | .alpha _ => true

/-- Numeric payload of a prerelease identifier (`0` for alphanumeric ones). -/
def prNum : PRVersion → Nat
  | .num n => n
  | .alpha _ => 0

/-- String payload of a prerelease identifier (`""` for numeric ones). -/
def prStr : PRVersion → String
  | .num _ => ""
  | .alpha s => s

/-- Lexicographic restatement of `prCmp`, used to derive its order laws. -/
def prCmpAux : PRVersion → PRVersion → Ordering :=
  compareLex (Ordering.byKey prIsAlpha compare)
    (compareLex (Ordering.byKey prNum compare) (Ordering.byKey prStr compare))

theorem prCmp_eq_aux : prCmp = prCmpAux := by
  funext a b
  cases a <;> cases b <;>
    simp only [prCmp, prCmpAux, compareLex, Ordering.byKey, prIsAlpha, prNum, prStr] <;>
    first
      | rfl
      | (cases h : compare (α := Nat) _ _ <;> simp [Ordering.then, h] <;> decide)

instance : Batteries.TransCmp prCmp := by
  rw [prCmp_eq_aux]; unfold prCmpAux; infer_instance

/-- Element-wise prerelease list comparison, the loop inside
`Version.Compare`: equal prefixes are broken by length (shorter is smaller). -/
def preCmp : List PRVersion → List PRVersion → Ordering
  | [], [] => .eq
  | [], _ :: _ => .lt
  | _ :: _, [] => .gt
  | a :: as, b :: bs => (prCmp a b).then (preCmp as bs)

theorem preCmp_symm : ∀ (as bs : List PRVersion), (preCmp as bs).swap = preCmp bs as := by
  intro as
  induction as with
  | nil => intro bs; cases bs <;> rfl
  | cons a as ih =>
    intro bs
    cases bs with
    | nil => rfl
    | cons b bs =>
      show ((prCmp a b).then (preCmp as bs)).swap = (prCmp b a).then (preCmp bs as)
      have hsymm : (prCmp a b).swap = prCmp b a := Batteries.OrientedCmp.symm a b
      rw [Ordering.swap_then, hsymm, ih]

instance : Batteries.OrientedCmp preCmp := ⟨fun x y => preCmp_symm x y⟩

theorem preCmp_le_trans :
    ∀ (as bs cs : List PRVersion), preCmp as bs ≠ .gt → preCmp bs cs ≠ .gt →
      preCmp as cs ≠ .gt := by
  intro as
  induction as with
  | nil => intro bs cs _ _; cases cs <;> simp [preCmp]
  | cons a as ih =>
    intro bs cs h1 h2
    cases bs with
    | nil => exact absurd rfl h1
    | cons b bs =>
      cases cs with
      | nil => simp [preCmp] at h2
      | cons c cs =>
        simp only [preCmp, ne_eq, Ordering.then_eq_gt, not_or, not_and] at h1 h2 ⊢
        refine ⟨Batteries.TransCmp.le_trans h1.1 h2.1, fun e1 e2 => ?_⟩
        match hab : prCmp a b with
        | .gt => exact h1.1 hab
        | .eq =>
          exact ih bs cs (h1.2 hab)
            (h2.2 (Batteries.TransCmp.cmp_congr_left hab ▸ e1)) e2
        | .lt =>
          exact h2.1 <| (Batteries.OrientedCmp.cmp_eq_gt).2
            (Batteries.TransCmp.cmp_congr_left e1 ▸ hab)

instance : Batteries.TransCmp preCmp where
  le_trans := preCmp_le_trans _ _ _

/-- Emptiness key: `Version.Compare` first rules on presence of prereleases
(a version without prereleases is greater). -/
def noPreB : List PRVersion → Bool
  | [] => true
  | _ :: _ => false

/-- Full prerelease comparison of `Version.Compare`: no-prerelease beats
any prerelease; otherwise element-wise with length tie-break. -/
def pAllCmp : List PRVersion → List PRVersion → Ordering :=
  compareLex (Ordering.byKey noPreB compare) preCmp

instance : Batteries.TransCmp pAllCmp := by
  unfold pAllCmp; infer_instance

/-- `Version.Compare` of `blang/semver`: major, then minor, then patch (all
numeric), then the prerelease rule. Build metadata is ignored. -/
def vCmp : Version → Version → Ordering :=
  compareLex (Ordering.byKey Version.major compare)
    (compareLex (Ordering.byKey Version.minor compare)
      (compareLex (Ordering.byKey Version.patch compare)
        (Ordering.byKey Version.pre pAllCmp)))

instance : Batteries.TransCmp vCmp := by
  unfold vCmp; infer_instance

/-- `Version.GT`: strict comparison, `v.Compare(o) == 1`. -/
def vGT (a b : Version) : Bool :=
  match vCmp a b with
  | .gt => true
  | _ => false

theorem vGT_iff {a b : Version} : vGT a b = true ↔ vCmp a b = .gt := by
  unfold vGT
  cases h : vCmp a b <;> simp [h]

/-! ### Go string primitives

Helpers mirroring the Go standard-library string functions the tool uses,
on `List Char`. -/

/-- `strings.SplitN(s, sep, _)` step: split at the first occurrence of `c`,
returning the part before it and, when found, the part after it. -/
def goSplitFirst (c : Char) : Chars → Chars × Option Chars
  | [] => ([], none)
  | x :: xs =>
    if x = c then ([], some xs)
    else
      let r := goSplitFirst c xs
      (x :: r.1, r.2)

/-- `strings.Split(s, c)`: full split; the empty string yields `[""]`. -/
def goSplitAll (c : Char) : Chars → List Chars
  | [] => [[]]
  | x :: xs =>
    let r := goSplitAll c xs
    if x = c then [] :: r
    else
      match r with
      | h :: t => (x :: h) :: t
      | [] => [[x]]

/-- `strings.SplitN(s, ".", 3)`: at most three parts, the third unsplit. -/
def splitN3 (s : Chars) : List Chars :=
  match goSplitFirst '.' s with
  | (a, none) => [a]
  | (a, some r) =>
    match goSplitFirst '.' r with
    | (b, none) => [a, b]
    | (b, some r2) => [a, b, r2]

/-- `strings.Index(s, pat)`: index of the first occurrence, `none` for `-1`. -/
def subIndex (pat : Chars) : Chars → Option Nat
  | [] => if pat.isPrefixOf ([] : Chars) then some 0 else none
  | c :: t =>
    if pat.isPrefixOf (c :: t) then some 0
    else (subIndex pat t).map (· + 1)

/-- `strings.Contains(s, pat)`. -/
def containsSub (s pat : String) : Bool := (subIndex pat.data s.data).isSome

/-- Go slice `s[a:b]` (on the index range that does not panic). -/
def goSlice (s : Chars) (a b : Nat) : Chars := (s.take b).drop a

/-- `strings.TrimSpace`. -/
def trimChars (s : Chars) : Chars :=
  ((s.dropWhile Char.isWhitespace).reverse.dropWhile Char.isWhitespace).reverse

/-- Scan for `path.Ext`: walk the reversed name, collecting the suffix until a
dot (returned, dot included), a slash, or the start of the name (empty). -/
def extRevLoop : Chars → Chars → Chars
  | [], _ => []
  | c :: rest, acc =>
    if c = '/' then []
    else if c = '.' then c :: acc
    else extRevLoop rest (c :: acc)

/-- `path.Ext(s)`: the suffix starting at the final dot of the last path
element, or the empty string. -/
def pathExtChars (s : Chars) : Chars := extRevLoop s.reverse []

/-- `path.Ext` on `String`. -/
def pathExt (s : String) : String := ⟨pathExtChars s.data⟩

/-- `path.Base(s)`: the last path element, after stripping trailing slashes;
`"."` for the empty path, `"/"` for an all-slash path. -/
def pathBaseChars (s : Chars) : Chars :=
  if s = [] then ['.']
  else
    let s1 := (s.reverse.dropWhile (· = '/')).reverse
    let s2 := (s1.reverse.takeWhile (· ≠ '/')).reverse
    if s2 = [] then ['/'] else s2

/-- `path.Base` on `String`. -/
def pathBase (s : String) : String := ⟨pathBaseChars s.data⟩

/-- ASCII fragment of `strings.ToLower` on one character. The tool only
compares the lowered string against `"md5"`; no character outside `A`–`Z`
lowers to an ASCII letter under Go's Unicode table, so the ASCII fragment is
faithful for that comparison. -/
def lowerChar (c : Char) : Char :=
  if h : 65 ≤ c.toNat ∧ c.toNat ≤ 90 then
    ⟨UInt32.ofNat (c.toNat + 32), by
      have hv : (UInt32.ofNat (c.toNat + 32)).toNat = (c.toNat + 32) % 4294967296 := rfl
      have hlt : c.toNat + 32 < 4294967296 := by omega
      refine Or.inl ?_
      rw [hv, Nat.mod_eq_of_lt hlt]
      omega⟩
  else c

/-- `strings.ToLower` (ASCII fragment). -/
def lowerAscii (s : String) : String := ⟨s.data.map lowerChar⟩

/-! ### The `blang/semver` parser -/

/-- Character class `numbers` of `blang/semver`. -/
def digitB (c : Char) : Bool := c.isDigit

/-- Character class `alphas` of `blang/semver` (letters and hyphen). -/
def alphaB (c : Char) : Bool :=
  (('a' ≤ c && c ≤ 'z') || ('A' ≤ c && c ≤ 'Z')) || c = '-'

/-- Character class `alphanum` of `blang/semver`. -/
def alnumB (c : Char) : Bool := alphaB c || digitB c

/-- `hasLeadingZeroes`: more than one character and starting with `'0'`. -/
def hasLeadingZeroes : Chars → Bool
  | '0' :: _ :: _ => true
  | _ => false

/-- `strconv.ParseUint(s, 10, 64)`: fails on the empty string, a non-digit,
or a value outside 64 bits. -/
def parseUintGo (s : Chars) : Option Nat :=
  if s.isEmpty then none
  else if s.all digitB then
    let n := s.foldl (fun acc c => 10 * acc + (c.toNat - 48)) 0
    if n < 18446744073709551616 then some n else none
  else none

/-- A numeric component of `Parse`: digit check, leading-zero check, then
`strconv.ParseUint`. -/
def parseNumComp (s : Chars) : Option Nat :=
  if !s.all digitB then none
  else if hasLeadingZeroes s then none
  else parseUintGo s

/-- `NewPRVersion`: numeric identifiers must have no leading zeroes;
otherwise the identifier must be alphanumeric. -/
def parsePR (s : Chars) : Option PRVersion :=
  if s.isEmpty then none
  else if s.all digitB then
    if hasLeadingZeroes s then none
    else (parseUintGo s).map PRVersion.num
  else if s.all alnumB then some (PRVersion.alpha ⟨s⟩)
  else none

/-- `semver.Parse`: requires exactly `major.minor.patchPrBuild`; splits build
metadata at the first `'+'`, the prerelease at the first `'-'` of what
remains, validates every part. Build identifiers are validated (nonempty,
alphanumeric) but not stored, as `Version.Compare` ignores them; `Parse`
validates the prerelease before the build, but both failures yield `none`
here, so the order is immaterial. -/
def parse (s : Chars) : Option Version :=
  if s.isEmpty then none
  else
    match splitN3 s with
    | [p0, p1, p2] => do
      let major ← parseNumComp p0
      let minor ← parseNumComp p1
      let (rest1, bld) := goSplitFirst '+' p2
      let (patchStr, prs) := goSplitFirst '-' rest1
      let patch ← parseNumComp patchStr
      let pre ← match prs with
        | none => pure []
        | some t => (goSplitAll '.' t).mapM parsePR
      let bldOk : Bool := match bld with
        | none => true
        | some b => (goSplitAll '.' b).all (fun q => !q.isEmpty && q.all alnumB)
      if bldOk then some ⟨major, minor, patch, pre⟩ else none
    | _ => none

/-- Whether the last short-form part carries `'+'` or `'-'`
(`strings.ContainsAny(parts[len(parts)-1], "+-")`). -/
def hasPM (q : Chars) : Bool := q.any (fun c => c = '+' || c = '-')

/-- `semver.ParseTolerant`: trim space, strip one leading `"v"`, pad a short
`major` or `major.minor` form with zero components (rejecting short forms
with prerelease or build metadata), then `Parse`. -/
def parseTolerant (s0 : Chars) : Option Version :=
  let s1 := trimChars s0
  let s2 := match s1 with
    | 'v' :: t => t
    | _ => s1
  match splitN3 s2 with
  | [a] => if hasPM a then none else parse (a ++ ['.', '0', '.', '0'])
  | [a, b] => if hasPM b then none else parse (a ++ '.' :: (b ++ ['.', '0']))
  | _ => parse s2

/-- `semver.ParseTolerant` on `String`. -/
def parseTolerantS (s : String) : Option Version := parseTolerant s.data

theorem vGT_eq_false_iff {a b : Version} : vGT a b = false ↔ vCmp a b ≠ .gt := by
  unfold vGT
  cases h : vCmp a b <;> simp [h]

/-! ### The selection loop shared by both resolvers

Both `latestGitHubRelease` and `latestSeleniumRelease` run the same loop:
start from the zero version, parse a key out of each item, ignore items whose
key fails to parse, and replace the current champion whenever a key is
strictly greater (`ver.GT(latest)`). -/

/-- The resolvers' champion loop over a list of items, accumulating the
greatest parsed version and the item that carried it. -/
def pickLoop {α : Type} (key : α → Option Version) :
    List α → Version → Option α → Version × Option α
  | [], latest, best => (latest, best)
  | a :: rest, latest, best =>
    match key a with
    | none => pickLoop key rest latest best
    | some v =>
      if vGT v latest then pickLoop key rest v (some a)
      else pickLoop key rest latest best

theorem pickLoop_stay {α : Type} (key : α → Option Version) :
    ∀ (l : List α) (latest : Version) (best : Option α),
      (∀ a ∈ l, ∀ v, key a = some v → vGT v latest = false) →
      pickLoop key l latest best = (latest, best) := by
  intro l
  induction l with
  | nil => intro latest best _; rfl
  | cons a rest ih =>
    intro latest best h
    match hka : key a with
    | none =>
      simp only [pickLoop, hka]
      exact ih latest best fun b hb v hv => h b (List.mem_cons_of_mem a hb) v hv
    | some v =>
      have hv : vGT v latest = false := h a (List.mem_cons_self a rest) v hka
      simp only [pickLoop, hka, hv, Bool.false_eq_true, if_false]
      exact ih latest best fun b hb u hu => h b (List.mem_cons_of_mem a hb) u hu

theorem pickLoop_win {α : Type} (key : α → Option Version) :
    ∀ (l : List α) (latest : Version) (best : Option α),
      (∃ a ∈ l, ∃ v, key a = some v ∧ vGT v latest = true) →
      ∃ l₁ w l₂ vw, l = l₁ ++ w :: l₂ ∧ key w = some vw ∧ vGT vw latest = true ∧
        (∀ b ∈ l₁, ∀ u, key b = some u → vCmp u vw = .lt) ∧
        (∀ b ∈ l₂, ∀ u, key b = some u → vGT u vw = false) ∧
        pickLoop key l latest best = (vw, some w) := by
  intro l
  induction l with
  | nil => intro latest best h; simp at h
  | cons a rest ih =>
    intro latest best h
    match hka : key a with
    | none =>
      have h' : ∃ b ∈ rest, ∃ v, key b = some v ∧ vGT v latest = true := by
        obtain ⟨b, hb, v, hkv, hgt⟩ := h
        rcases List.mem_cons.1 hb with hb | hb
        · subst hb; rw [hka] at hkv; exact absurd hkv (by simp)
        · exact ⟨b, hb, v, hkv, hgt⟩
      obtain ⟨l₁, w, l₂, vw, hsplit, hkw, hgtw, hl1, hl2, heq⟩ := ih latest best h'
      refine ⟨a :: l₁, w, l₂, vw, by rw [hsplit, List.cons_append], hkw, hgtw, ?_, hl2, ?_⟩
      · intro b hb u hu
        rcases List.mem_cons.1 hb with hb | hb
        · subst hb; rw [hka] at hu; exact absurd hu (by simp)
        · exact hl1 b hb u hu
      · simp only [pickLoop, hka]; exact heq
    | some v =>
      by_cases hv : vGT v latest = true
      · by_cases hrest : ∃ b ∈ rest, ∃ u, key b = some u ∧ vGT u v = true
        · obtain ⟨l₁, w, l₂, vw, hsplit, hkw, hgtw, hl1, hl2, heq⟩ := ih v (some a) hrest
          refine ⟨a :: l₁, w, l₂, vw, by rw [hsplit, List.cons_append], hkw, ?_, ?_, hl2, ?_⟩
          · exact vGT_iff.2 (Batteries.TransCmp.gt_trans (vGT_iff.1 hgtw) (vGT_iff.1 hv))
          · intro b hb u hu
            rcases List.mem_cons.1 hb with hb | hb
            · subst hb
              rw [hka] at hu
              cases hu
              exact (Batteries.OrientedCmp.cmp_eq_gt).1 (vGT_iff.1 hgtw)
            · exact hl1 b hb u hu
          · simp only [pickLoop, hka, hv, if_true]; exact heq
        · have hrest' : ∀ b ∈ rest, ∀ u, key b = some u → vGT u v = false := by
            intro b hb u hu
            by_contra hne
            exact hrest ⟨b, hb, u, hu, by revert hne; cases vGT u v <;> simp⟩
          refine ⟨[], a, rest, v, rfl, hka, hv, by simp, hrest', ?_⟩
          simp only [pickLoop, hka, hv, if_true, List.nil_append]
          exact pickLoop_stay key rest v (some a) hrest'
      · have hvf : vGT v latest = false := by revert hv; cases vGT v latest <;> simp
        have h' : ∃ b ∈ rest, ∃ u, key b = some u ∧ vGT u latest = true := by
          obtain ⟨b, hb, u, hku, hgt⟩ := h
          rcases List.mem_cons.1 hb with hb | hb
          · subst hb; rw [hka] at hku; cases hku; exact absurd hgt hv
          · exact ⟨b, hb, u, hku, hgt⟩
        obtain ⟨l₁, w, l₂, vw, hsplit, hkw, hgtw, hl1, hl2, heq⟩ := ih latest best h'
        refine ⟨a :: l₁, w, l₂, vw, by rw [hsplit, List.cons_append], hkw, hgtw, ?_, hl2, ?_⟩
        · intro b hb u hu
          rcases List.mem_cons.1 hb with hb | hb
          · subst hb
            rw [hka] at hu
            cases hu
            exact Batteries.TransCmp.le_lt_trans (vGT_eq_false_iff.1 hvf)
              ((Batteries.OrientedCmp.cmp_eq_gt).1 (vGT_iff.1 hgtw))
          · exact hl1 b hb u hu
        · simp only [pickLoop, hka, hvf, Bool.false_eq_true, if_false]; exact heq

/-! ### The release-listing resolver `latestGitHubRelease` -/

/-- Outcome of running a resolver: a Go panic (nil-pointer dereference or
slice bounds violation), a returned error, or a returned value. -/
inductive RunOutcome where
  | panics : RunOutcome
  | error (msg : String) : RunOutcome
  | ok (value : String) : RunOutcome
  deriving DecidableEq

/-- A release as returned by the hosted-releases listing API: a tag name and
the assets' `BrowserDownloadURL` fields (`none` models a nil pointer, which
the asset loop skips). -/
structure RepoRelease where
  tagName : String
  assets : List (Option String)
  deriving DecidableEq

/-- Key of the champion loop in `latestGitHubRelease`:
`semver.ParseTolerant(*r.TagName)`. -/
def ghKey (r : RepoRelease) : Option Version := parseTolerantS r.tagName

/-- The asset scan of `latestGitHubRelease`: skip nil URLs, return the first
asset URL containing the filter substring. -/
def assetLoop (flt : String) : List (Option String) → Option String
  | [] => none
  | none :: rest => assetLoop flt rest
  | some u :: rest => if containsSub u flt then some u else assetLoop flt rest

/-- The error `latestGitHubRelease` returns when no asset matches:
`fmt.Errorf("release for %s/%s containing %q not found", ...)`. -/
def ghNotFound (owner repo flt : String) : String :=
  "release for " ++ owner ++ "/" ++ repo ++ " containing \"" ++ flt ++ "\" not found"

/-- `latestGitHubRelease` after a successful `ListReleases` call returning
`rels`: run the champion loop from the zero version with a nil
`latestRelease`; then range over `latestRelease.Assets`. When no release was
selected, `latestRelease` is still nil and the range expression dereferences
it: a panic. -/
def latestGitHubReleaseM (owner repo flt : String) (rels : List RepoRelease) : RunOutcome :=
  match (pickLoop ghKey rels semvZero none).2 with
  | none => RunOutcome.panics
  | some lr =>
    match assetLoop flt lr.assets with
    | some u => RunOutcome.ok u
    | none => RunOutcome.error (ghNotFound owner repo flt)

/-! ### The object-store listing resolver `latestSeleniumRelease` -/

/-- The fixed object-name marker `filePrefix = "selenium-server-standalone-"`. -/
def filePrefixChars : Chars := "selenium-server-standalone-".data

/-- What one listed object name contributes to the loop. -/
inductive SelCand where
  | skip : SelCand
  | panicC : SelCand
  | ver (v : Version) : SelCand
  deriving DecidableEq

/-- Per-name step of `latestSeleniumRelease`: find the prefix marker
(`strings.Index`), otherwise skip; slice `o.Name[i+len(filePrefix) :
len(o.Name)-4]` — which panics when the slice bounds cross — and parse the
slice tolerantly, skipping names that fail to parse. -/
def candOf (nm : Chars) : SelCand :=
  match subIndex filePrefixChars nm with
  | none => SelCand.skip
  | some i =>
    if nm.length - 4 < i + filePrefixChars.length then SelCand.panicC
    else
      match parseTolerant (goSlice nm (i + filePrefixChars.length) (nm.length - 4)) with
      | none => SelCand.skip
      | some v => SelCand.ver v

/-- The loop of `latestSeleniumRelease` over the bucket listing, carrying the
`object` accumulator (empty string when nothing selected yet, as in the
source) and the current `latest` version; after the loop, an empty `object`
yields the "no release found" error. -/
def selLoop : List String → String → Version → RunOutcome
  | [], obj, _ => if obj = "" then RunOutcome.error "no release found" else RunOutcome.ok obj
  | nm :: rest, obj, latest =>
    match candOf nm.data with
    | SelCand.panicC => RunOutcome.panics
    | SelCand.skip => selLoop rest obj latest
    | SelCand.ver v =>
      if vGT v latest then selLoop rest nm v else selLoop rest obj latest

/-- `latestSeleniumRelease` after a successful full listing `names`: note the
function returns the selected *object name*, not a URL. -/
def latestSeleniumReleaseM (names : List String) : RunOutcome :=
  selLoop names "" semvZero

/-- The champion-loop key corresponding to `candOf`. -/
def selKey (nm : String) : Option Version :=
  match candOf nm.data with
  | SelCand.ver v => some v
  | _ => none

/-- The `object` accumulator as an option (`""` is the not-yet-selected
sentinel in the source). -/
def liftObj (obj : String) : Option String :=
  if obj = "" then none else some obj

theorem candOf_nil : candOf [] = SelCand.skip := by decide

theorem candOf_ver_ne_empty {nm : String} {v : Version}
    (h : candOf nm.data = SelCand.ver v) : nm ≠ "" := by
  intro he
  subst he
  rw [show ("" : String).data = [] from rfl, candOf_nil] at h
  cases h

theorem selLoop_eq_pick :
    ∀ (names : List String) (obj : String) (latest : Version),
      (∀ nm ∈ names, candOf nm.data ≠ SelCand.panicC) →
      selLoop names obj latest =
        (match (pickLoop selKey names latest (liftObj obj)).2 with
         | none => RunOutcome.error "no release found"
         | some w => RunOutcome.ok w) := by
  intro names
  induction names with
  | nil =>
    intro obj latest _
    show (if obj = "" then RunOutcome.error "no release found" else RunOutcome.ok obj) = _
    simp only [pickLoop, liftObj]
    by_cases h : obj = "" <;> simp [h]
  | cons nm rest ih =>
    intro obj latest hsafe
    have hnm := hsafe nm (List.mem_cons_self nm rest)
    have hrest : ∀ x ∈ rest, candOf x.data ≠ SelCand.panicC :=
      fun x hx => hsafe x (List.mem_cons_of_mem nm hx)
    match hc : candOf nm.data with
    | SelCand.panicC => exact absurd hc hnm
    | SelCand.skip =>
      have hk : selKey nm = none := by unfold selKey; rw [hc]
      simp only [selLoop, hc, pickLoop, hk]
      exact ih obj latest hrest
    | SelCand.ver v =>
      have hk : selKey nm = some v := by unfold selKey; rw [hc]
      simp only [selLoop, hc, pickLoop, hk]
      by_cases hv : vGT v latest = true
      · simp only [hv, if_true]
        have hlift : liftObj nm = some nm := by
          unfold liftObj
          simp [candOf_ver_ne_empty hc]
        rw [ih nm v hrest, hlift]
      · have hvf : vGT v latest = false := by revert hv; cases vGT v latest <;> simp
        simp only [hvf, Bool.false_eq_true, if_false]
        exact ih obj latest hrest

/-! ### Effects model shared by the two `init` binaries -/

/-- Digest algorithms of the closed set the tool knows. -/
inductive HashAlg where
  | md5 : HashAlg
  | sha256 : HashAlg
  deriving DecidableEq

/-- Observable actions of a per-file task, in program order. -/
inductive Event where
  | skipBrowserLog (name : String) : Event
  | statCall (name : String) : Event
  | download (url : String) (name : String) : Event
  | skipDownloadedLog (name : String) : Event
  | execRun (argv : List String) : Event
  | removeAll (path : String) : Event
  | renameCall (src : String) (dst : String) : Event
  | renameWarn (src : String) (dst : String) : Event
  deriving DecidableEq

/-- Outcomes of the effectful steps inside `downloadFile` (both binaries):
whether `os.Create`, `http.Get`, `io.Copy` and the deferred `Close` succeed,
and the digests of the bytes the GET streamed. -/
structure DWorld where
  createOk : Bool
  getOk : Bool
  copyOk : Bool
  closeOk : Bool
  bodyMd5Hex : String
  bodySha256Hex : String
  deriving DecidableEq

/-! ### The concurrent `init` binary -/

namespace Concurrent

/-- The `file` descriptor struct of the concurrent binary. -/
structure file where
  url : String
  name : String
  hash : String
  hashType : String
  rename : List String
  browser : Bool
  deriving DecidableEq

/-- Error sites of the concurrent `downloadFile`, one constructor per
`fmt.Errorf` with its format arguments. -/
inductive DlError where
  | createErr (name : String) : DlError
  | transportGet (name : String) (url : String) : DlError
  | transportCopy (name : String) (url : String) : DlError
  | closeErr (name : String) : DlError
  deriving DecidableEq

/-- Result of the concurrent `downloadFile`: the returned error, and which
digest accumulator the `switch strings.ToLower(file.hashType)` selected
(when execution reached it). -/
structure DlResult where
  err : Option DlError
  algUsed : Option HashAlg
  deriving DecidableEq

/-- `downloadFile` of the concurrent binary: create the target, GET the URL,
select MD5 for hash type `"md5"` (any case) and SHA-256 otherwise, and stream
the body into the file and the digest accumulator. The computed digest is
never compared against `file.hash`; the deferred `Close` error only replaces
a nil error. -/
def downloadFile (f : file) (w : DWorld) : DlResult :=
  if !w.createOk then ⟨some (DlError.createErr f.name), none⟩
  else
    let finish : Option DlError → Option HashAlg → DlResult := fun e alg =>
      match e with
      | some e0 => ⟨some e0, alg⟩
      | none => if w.closeOk then ⟨none, alg⟩ else ⟨some (DlError.closeErr f.name), alg⟩
    if !w.getOk then finish (some (DlError.transportGet f.name f.url)) none
    else
      let alg := if lowerAscii f.hashType = "md5" then HashAlg.md5 else HashAlg.sha256
      if !w.copyOk then finish (some (DlError.transportCopy f.name f.url)) (some alg)
      else finish none (some alg)

/-- The `switch path.Ext(file.name)` of `handleFile`: the extraction command,
if any, for a target name. -/
def extractArgv (name : String) : Option (List String) :=
  let ext := pathExt name
  if ext = ".zip" then some ["unzip", "-o", name]
  else if ext = ".gz" then some ["tar", "-xzf", name]
  else if ext = ".bz2" then some ["tar", "-xjf", name]
  else none

/-- Errors `handleFile` can return: a propagated download error, or
`fmt.Errorf("Error unzipping %q: %v", ...)` from an extraction command. -/
inductive HErr where
  | dl (e : DlError) : HErr
  | extractFail (name : String) : HErr
  deriving DecidableEq

/-- Effectful-step outcomes for `handleFile`: whether `os.Stat(file.name)`
succeeds, the digest of the bytes currently on disk under that name (which
`handleFile` never consults), the `downloadFile` effects, the success of each
`exec.Command(...).Run()`, and of `os.Rename`. -/
structure HWorld where
  statOk : Bool
  diskSha256Hex : String
  dl : DWorld
  cmdOk : List String → Bool
  renameOk : Bool

/-- Fetch-or-skip step of `handleFile`: `os.Stat(file.name)` succeeding
skips the download entirely (no digest is consulted); otherwise
`downloadFile` runs and its error propagates. -/
def fetchPhase (f : file) (w : HWorld) : Option HErr × List Event :=
  if w.statOk then (none, [Event.statCall f.name])
  else
    match (downloadFile f w.dl).err with
    | some e => (some (HErr.dl e), [Event.statCall f.name, Event.download f.url f.name])
    | none => (none, [Event.statCall f.name, Event.download f.url f.name])

/-- Extraction step of `handleFile`: the `switch path.Ext(file.name)`,
running the selected command; a failure is fatal to the task. -/
def extractPhase (f : file) (w : HWorld) : Option HErr × List Event :=
  match extractArgv f.name with
  | some argv =>
    if w.cmdOk argv then (none, [Event.execRun argv])
    else (some (HErr.extractFail f.name), [Event.execRun argv])
  | none => (none, [])

/-- Rename step of `handleFile`: for a two-element rename pair,
`os.RemoveAll` the destination (error ignored), then `os.Rename`, whose
failure is logged as a warning only. -/
def renameStep (f : file) (w : HWorld) : List Event :=
  match f.rename with
  | [a, b] =>
    if w.renameOk then [Event.removeAll b, Event.renameCall a b]
    else [Event.removeAll b, Event.renameCall a b, Event.renameWarn a b]
  | _ => []

/-- `handleFile` of the concurrent binary: skip browser files when the
toggle is off; otherwise fetch (unless present), extract by extension, and
rename, accumulating the observable events of each step in program order. -/
def handleFile (downloadBrowsers : Bool) (f : file) (w : HWorld) :
    Option HErr × List Event :=
  if f.browser && !downloadBrowsers then
    (none, [Event.skipBrowserLog f.name])
  else
    match fetchPhase f w with
    | (some e, evs) => (some e, evs)
    | (none, evs) =>
      match extractPhase f w with
      | (some e, evs2) => (some e, evs ++ evs2)
      | (none, evs2) => (none, evs ++ evs2 ++ renameStep f w)

/-- Outcome of one task goroutine of `main`. -/
inductive TaskOut where
  | panicked : TaskOut
  | resolveExit (msg : String) : TaskOut
  | ran (r : Option HErr) : TaskOut
  deriving DecidableEq

/-- The Selenium-release goroutine of `main`: resolve the latest release via
the object-store listing; `glog.Exitf` on a resolution error; otherwise build
`file{url: url, name: path.Base(url)}` and run `handleFile` on it. -/
def seleniumTask (downloadBrowsers : Bool) (names : List String) (w : HWorld) :
    TaskOut × List Event :=
  match latestSeleniumReleaseM names with
  | RunOutcome.panics => (TaskOut.panicked, [])
  | RunOutcome.error e => (TaskOut.resolveExit e, [])
  | RunOutcome.ok url =>
    let f : file := ⟨url, pathBase url, "", "", [], false⟩
    let r := handleFile downloadBrowsers f w
    (TaskOut.ran r.1, r.2)

end Concurrent

/-! ### The sequential (vendored) `init` binary -/

namespace Vendored

/-- The `file` descriptor struct of the sequential binary. -/
structure file where
  url : String
  name : String
  hash : String
  rename : List String
  deriving DecidableEq

/-- Error sites of the sequential `downloadFile`; `integrity` is the
`fmt.Errorf("%s: got sha256 hash %q, want %q", ...)` comparison failure,
carrying the computed and the expected digest. -/
inductive DlError where
  | createErr (name : String) : DlError
  | transportGet (name : String) (url : String) : DlError
  | transportCopy (name : String) (url : String) : DlError
  | closeErr (name : String) : DlError
  | integrity (name : String) (got : String) (want : String) : DlError
  deriving DecidableEq

/-- Whether an error comes from one of the two transport sites
(`http.Get` failure, `io.Copy` failure). -/
def DlError.isTransport : DlError → Bool
  | DlError.transportGet _ _ => true
  | DlError.transportCopy _ _ => true
  | _ => false

/-- `downloadFile` of the sequential binary: as the concurrent one, but the
digest is always SHA-256 and is compared against `file.hash` after the copy;
a mismatch is an integrity error. -/
def downloadFile (f : file) (w : DWorld) : Option DlError :=
  if !w.createOk then some (DlError.createErr f.name)
  else
    let finish : Option DlError → Option DlError := fun e =>
      match e with
      | some e0 => some e0
      | none => if w.closeOk then none else some (DlError.closeErr f.name)
    if !w.getOk then finish (some (DlError.transportGet f.name f.url))
    else if !w.copyOk then finish (some (DlError.transportCopy f.name f.url))
    else if w.bodySha256Hex ≠ f.hash then
      finish (some (DlError.integrity f.name w.bodySha256Hex f.hash))
    else finish none

/-- Effectful-step outcomes for one iteration of the sequential `main` loop:
the pieces of `fileSameHash` (`os.Stat`, `os.Open`, `io.Copy` success and the
digest of the on-disk content), the `downloadFile` effects, and the success
of `unzip` and `os.Rename`. -/
structure VWorld where
  statOk : Bool
  openOk : Bool
  readOk : Bool
  diskSha256Hex : String
  dl : DWorld
  unzipOk : Bool
  renameOk : Bool

/-- `fileSameHash`: true only when the file exists, opens, reads, and its
SHA-256 digest equals the expected one. -/
def fileSameHash (name want : String) (w : VWorld) : Bool :=
  w.statOk && w.openOk && w.readOk && (w.diskSha256Hex == want)

/-- The sequential binary's extraction dispatch:
`if ext := path.Ext(file.name); ext == ".zip"` — only zip archives. -/
def extractArgv (name : String) : Option (List String) :=
  if pathExt name = ".zip" then some ["unzip", name] else none

/-- Outcome of one iteration of the sequential `main` loop: `glog.Exit` after
a download error, `glog.Exitf` after an unzip error, or completion. -/
inductive StepOut where
  | exitDl (e : DlError) : StepOut
  | exitUnzip (name : String) : StepOut
  | completed : StepOut
  deriving DecidableEq

/-- The rename step of the sequential `main` loop: for a two-element rename
pair, `os.Rename` directly (no removal of the destination); a failure is only
a warning. -/
def renamePhase (f : file) (w : VWorld) (evs : List Event) : StepOut × List Event :=
  match f.rename with
  | [a, b] =>
    if w.renameOk then (StepOut.completed, evs ++ [Event.renameCall a b])
    else (StepOut.completed, evs ++ [Event.renameCall a b, Event.renameWarn a b])
  | _ => (StepOut.completed, evs)

/-- Extraction and rename, after the fetch-or-skip step. -/
def afterFetch (f : file) (w : VWorld) (evs : List Event) : StepOut × List Event :=
  match extractArgv f.name with
  | some argv =>
    if w.unzipOk then renamePhase f w (evs ++ [Event.execRun argv])
    else (StepOut.exitUnzip f.name, evs ++ [Event.execRun argv])
  | none => renamePhase f w evs

/-- One iteration of the sequential `main` loop over `files`: skip the
download (with a log) when `fileSameHash` holds, otherwise download and
`glog.Exit` on error; then unzip `.zip` targets and apply the rename pair. -/
def mainStep (f : file) (w : VWorld) : StepOut × List Event :=
  if fileSameHash f.name f.hash w then
    afterFetch f w [Event.skipDownloadedLog f.name]
  else
    match downloadFile f w.dl with
    | some e => (StepOut.exitDl e, [Event.download f.url f.name])
    | none => afterFetch f w [Event.download f.url f.name]

end Vendored

/-! ### Spec-side notions used to state the claims -/

/-- Modelled from the spec: a resolved locator must be an absolute URL (§3
invariants), consumed by a plain HTTP(S) GET (§6), hence carrying an explicit
scheme. -/
def isAbsoluteURL (s : String) : Bool :=
  "http://".data.isPrefixOf s.data || "https://".data.isPrefixOf s.data

/-- Archive kinds of the spec's closed extension mapping (§4.3). -/
inductive ArchKind where
  | zip : ArchKind
  | gzipTar : ArchKind
  | bzip2Tar : ArchKind
  deriving DecidableEq

/-- Modelled from the spec: extraction is chosen by the target filename's
extension — a name ending in `.zip` means zip extraction, `.gz` (including
`.tar.gz`) gzip-tar, `.bz2` bzip2-tar, any other extension none. -/
def specExtractKind (name : String) : Option ArchKind :=
  if ".zip".data.isSuffixOf name.data then some ArchKind.zip
  else if ".gz".data.isSuffixOf name.data then some ArchKind.gzipTar
  else if ".bz2".data.isSuffixOf name.data then some ArchKind.bzip2Tar
  else none

/-- The subprocess command the concurrent binary runs for each archive kind. -/
def archCommand (name : String) : ArchKind → List String
  | ArchKind.zip => ["unzip", "-o", name]
  | ArchKind.gzipTar => ["tar", "-xzf", name]
  | ArchKind.bzip2Tar => ["tar", "-xjf", name]

/-- The four letter-case variants of `"md5"` (its digits admit no case). -/
def md5Casings : List String := ["md5", "Md5", "mD5", "MD5"]

/-- Modelled from the claim: hash type `"md5"` in any letter case selects
MD5; every other value selects SHA-256. -/
def specAlg (t : String) : HashAlg :=
  if t ∈ md5Casings then HashAlg.md5 else HashAlg.sha256

/-! ### Extension dispatch: `path.Ext` against the spec's suffix mapping -/

/-- Structural view of `extRevLoop`'s scan: the characters of the reversed
input before its first `'.'`, unless a `'/'` or the end comes first. -/
def scanDotRev : Chars → Option Chars
  | [] => none
  | c :: r =>
    if c = '/' then none
    else if c = '.' then some []
    else (scanDotRev r).map (c :: ·)

theorem extRevLoop_eq_scan :
    ∀ (r acc : Chars),
      extRevLoop r acc =
        (match scanDotRev r with
         | none => []
         | some pre => '.' :: (pre.reverse ++ acc)) := by
  intro r
  induction r with
  | nil => intro acc; rfl
  | cons c r ih =>
    intro acc
    by_cases h1 : c = '/'
    · simp [extRevLoop, scanDotRev, h1]
    · by_cases h2 : c = '.'
      · simp [extRevLoop, scanDotRev, h1, h2]
      · simp only [extRevLoop, scanDotRev, h1, h2, if_false, ih (c :: acc)]
        match hs : scanDotRev r with
        | none => rfl
        | some pre => simp

theorem scanDotRev_of_clean :
    ∀ (p t : Chars), (∀ c ∈ p, c ≠ '.' ∧ c ≠ '/') →
      scanDotRev (p ++ '.' :: t) = some p := by
  intro p
  induction p with
  | nil => intro t _; rfl
  | cons c p ih =>
    intro t hp
    have hc := hp c (List.mem_cons_self c p)
    show scanDotRev (c :: (p ++ '.' :: t)) = some (c :: p)
    simp only [scanDotRev, hc.2, hc.1, if_false]
    rw [ih t fun x hx => hp x (List.mem_cons_of_mem c hx)]
    rfl

theorem scanDotRev_some :
    ∀ (r pre : Chars), scanDotRev r = some pre →
      (∃ t, r = pre ++ '.' :: t) ∧ (∀ c ∈ pre, c ≠ '.' ∧ c ≠ '/') := by
  intro r
  induction r with
  | nil => intro pre h; cases h
  | cons c r ih =>
    intro pre h
    by_cases h1 : c = '/'
    · simp [scanDotRev, h1] at h
    · by_cases h2 : c = '.'
      · simp only [scanDotRev, h1, h2, if_false, if_true] at h
        cases h
        exact ⟨⟨r, by simp [h2]⟩, by simp⟩
      · simp only [scanDotRev, h1, h2, if_false, Option.map_eq_some'] at h
        obtain ⟨pre0, hpre0, rfl⟩ := h
        obtain ⟨⟨t, ht⟩, hclean⟩ := ih pre0 hpre0
        refine ⟨⟨t, by rw [ht]; rfl⟩, ?_⟩
        intro x hx
        rcases List.mem_cons.1 hx with rfl | hx
        · exact ⟨h2, h1⟩
        · exact hclean x hx

/-- `path.Ext` yields a given dot-extension exactly on names carrying it as a
suffix (for extensions whose body has no dot and no slash). -/
theorem pathExtChars_eq_iff {body : Chars}
    (hbody : ∀ c ∈ body, c ≠ '.' ∧ c ≠ '/') (s : Chars) :
    pathExtChars s = '.' :: body ↔ ('.' :: body) <:+ s := by
  unfold pathExtChars
  rw [extRevLoop_eq_scan]
  constructor
  · intro h
    match hs : scanDotRev s.reverse with
    | none => rw [hs] at h; cases h
    | some pre =>
      rw [hs] at h
      simp only [List.append_nil] at h
      have hpre : pre = body.reverse := by
        have := List.cons.injEq '.' (pre.reverse) '.' body ▸ h
        have h2 : pre.reverse = body := by
          injection h
        rw [← h2, List.reverse_reverse]
      subst hpre
      obtain ⟨⟨t, ht⟩, _⟩ := scanDotRev_some s.reverse body.reverse hs
      refine ⟨t.reverse, ?_⟩
      have : s.reverse.reverse = (body.reverse ++ '.' :: t).reverse := by rw [ht]
      rw [List.reverse_reverse] at this
      rw [this]
      simp
  · rintro ⟨u, rfl⟩
    have : (u ++ '.' :: body).reverse = body.reverse ++ '.' :: u.reverse := by
      simp
    rw [this, scanDotRev_of_clean body.reverse u.reverse
      (fun c hc => hbody c (List.mem_reverse.1 hc))]
    simp

theorem strMk_eq_iff {cs : Chars} {t : String} : (⟨cs⟩ : String) = t ↔ cs = t.data :=
  ⟨fun h => by rw [← h], fun h => String.ext h⟩

theorem extractArgv_eq_spec (name : String) :
    Concurrent.extractArgv name = Option.map (archCommand name) (specExtractKind name) := by
  have hz := @pathExtChars_eq_iff ['z', 'i', 'p'] (by decide) name.data
  have hg := @pathExtChars_eq_iff ['g', 'z'] (by decide) name.data
  have hb := @pathExtChars_eq_iff ['b', 'z', '2'] (by decide) name.data
  unfold Concurrent.extractArgv specExtractKind pathExt
  by_cases s1 : ('.' :: ['z', 'i', 'p'] : Chars) <:+ name.data
  · have e1 : (⟨pathExtChars name.data⟩ : String) = ".zip" := strMk_eq_iff.2 (hz.2 s1)
    have b1 : (".zip".data.isSuffixOf name.data) = true := by
      rw [List.isSuffixOf_iff_suffix]; exact s1
    simp [e1, b1, archCommand]
  · have b1 : (".zip".data.isSuffixOf name.data) = false := by
      rw [Bool.eq_false_iff, ne_eq, List.isSuffixOf_iff_suffix]; exact s1
    have e1 : (⟨pathExtChars name.data⟩ : String) ≠ ".zip" := by
      rw [ne_eq, strMk_eq_iff]
      exact fun h => s1 (hz.1 h)
    by_cases s2 : ('.' :: ['g', 'z'] : Chars) <:+ name.data
    · have e2 : (⟨pathExtChars name.data⟩ : String) = ".gz" := strMk_eq_iff.2 (hg.2 s2)
      have b2 : (".gz".data.isSuffixOf name.data) = true := by
        rw [List.isSuffixOf_iff_suffix]; exact s2
      simp [e1, e2, b1, b2, archCommand]
    · have b2 : (".gz".data.isSuffixOf name.data) = false := by
        rw [Bool.eq_false_iff, ne_eq, List.isSuffixOf_iff_suffix]; exact s2
      have e2 : (⟨pathExtChars name.data⟩ : String) ≠ ".gz" := by
        rw [ne_eq, strMk_eq_iff]
        exact fun h => s2 (hg.1 h)
      by_cases s3 : ('.' :: ['b', 'z', '2'] : Chars) <:+ name.data
      · have e3 : (⟨pathExtChars name.data⟩ : String) = ".bz2" := strMk_eq_iff.2 (hb.2 s3)
        have b3 : (".bz2".data.isSuffixOf name.data) = true := by
          rw [List.isSuffixOf_iff_suffix]; exact s3
        simp [e1, e2, e3, b1, b2, b3, archCommand]
      · have b3 : (".bz2".data.isSuffixOf name.data) = false := by
          rw [Bool.eq_false_iff, ne_eq, List.isSuffixOf_iff_suffix]; exact s3
        have e3 : (⟨pathExtChars name.data⟩ : String) ≠ ".bz2" := by
          rw [ne_eq, strMk_eq_iff]
          exact fun h => s3 (hb.1 h)
        simp [e1, e2, e3, b1, b2, b3, archCommand]

theorem vendorExtractArgv_eq_spec (name : String) :
    Vendored.extractArgv name =
      Option.bind (specExtractKind name)
        (fun k => match k with
          | ArchKind.zip => some ["unzip", name]
          | _ => none) := by
  have hz := @pathExtChars_eq_iff ['z', 'i', 'p'] (by decide) name.data
  have hg := @pathExtChars_eq_iff ['g', 'z'] (by decide) name.data
  have hb := @pathExtChars_eq_iff ['b', 'z', '2'] (by decide) name.data
  unfold Vendored.extractArgv specExtractKind pathExt
  by_cases s1 : ('.' :: ['z', 'i', 'p'] : Chars) <:+ name.data
  · have e1 : (⟨pathExtChars name.data⟩ : String) = ".zip" := strMk_eq_iff.2 (hz.2 s1)
    have b1 : (".zip".data.isSuffixOf name.data) = true := by
      rw [List.isSuffixOf_iff_suffix]; exact s1
    simp [e1, b1, archCommand]
  · have b1 : (".zip".data.isSuffixOf name.data) = false := by
      rw [Bool.eq_false_iff, ne_eq, List.isSuffixOf_iff_suffix]; exact s1
    have e1 : (⟨pathExtChars name.data⟩ : String) ≠ ".zip" := by
      rw [ne_eq, strMk_eq_iff]
      exact fun h => s1 (hz.1 h)
    by_cases s2 : ('.' :: ['g', 'z'] : Chars) <:+ name.data
    · have b2 : (".gz".data.isSuffixOf name.data) = true := by
        rw [List.isSuffixOf_iff_suffix]; exact s2
      simp [e1, b1, b2, archCommand]
    · have b2 : (".gz".data.isSuffixOf name.data) = false := by
        rw [Bool.eq_false_iff, ne_eq, List.isSuffixOf_iff_suffix]; exact s2
      by_cases s3 : ('.' :: ['b', 'z', '2'] : Chars) <:+ name.data
      · have b3 : (".bz2".data.isSuffixOf name.data) = true := by
          rw [List.isSuffixOf_iff_suffix]; exact s3
        simp [e1, b1, b2, b3, archCommand]
      · have b3 : (".bz2".data.isSuffixOf name.data) = false := by
          rw [Bool.eq_false_iff, ne_eq, List.isSuffixOf_iff_suffix]; exact s3
        simp [e1, b1, b2, b3, archCommand]

/-! ### Case-insensitive `"md5"` comparison -/

theorem charToNat_inj {a b : Char} (h : a.toNat = b.toNat) : a = b :=
  Char.ext (UInt32.ext h)

theorem strEq_iff_data {s t : String} : s = t ↔ s.data = t.data :=
  ⟨congrArg String.data, String.ext⟩

theorem lowerChar_toNat (c : Char) :
    (lowerChar c).toNat =
      if 65 ≤ c.toNat ∧ c.toNat ≤ 90 then c.toNat + 32 else c.toNat := by
  unfold lowerChar
  split
  · next h =>
    show (UInt32.ofNat (c.toNat + 32)).toNat = c.toNat + 32
    have hv : (UInt32.ofNat (c.toNat + 32)).toNat = (c.toNat + 32) % 4294967296 := rfl
    rw [hv, Nat.mod_eq_of_lt (by omega)]
  · rfl

theorem lowerChar_eq_m (c : Char) : lowerChar c = 'm' ↔ (c = 'm' ∨ c = 'M') := by
  constructor
  · intro h
    have ht : (lowerChar c).toNat = 109 := by rw [h]; rfl
    rw [lowerChar_toNat] at ht
    by_cases hc : 65 ≤ c.toNat ∧ c.toNat ≤ 90
    · rw [if_pos hc] at ht
      refine Or.inr (charToNat_inj ?_)
      rw [show ('M' : Char).toNat = 77 from rfl]
      omega
    · rw [if_neg hc] at ht
      refine Or.inl (charToNat_inj ?_)
      rw [show ('m' : Char).toNat = 109 from rfl]
      omega
  · rintro (rfl | rfl) <;> decide

theorem lowerChar_eq_d (c : Char) : lowerChar c = 'd' ↔ (c = 'd' ∨ c = 'D') := by
  constructor
  · intro h
    have ht : (lowerChar c).toNat = 100 := by rw [h]; rfl
    rw [lowerChar_toNat] at ht
    by_cases hc : 65 ≤ c.toNat ∧ c.toNat ≤ 90
    · rw [if_pos hc] at ht
      refine Or.inr (charToNat_inj ?_)
      rw [show ('D' : Char).toNat = 68 from rfl]
      omega
    · rw [if_neg hc] at ht
      refine Or.inl (charToNat_inj ?_)
      rw [show ('d' : Char).toNat = 100 from rfl]
      omega
  · rintro (rfl | rfl) <;> decide

theorem lowerChar_eq_5 (c : Char) : lowerChar c = '5' ↔ c = '5' := by
  constructor
  · intro h
    have ht : (lowerChar c).toNat = 53 := by rw [h]; rfl
    rw [lowerChar_toNat] at ht
    by_cases hc : 65 ≤ c.toNat ∧ c.toNat ≤ 90
    · rw [if_pos hc] at ht
      exact absurd ht (by omega)
    · rw [if_neg hc] at ht
      refine charToNat_inj ?_
      rw [show ('5' : Char).toNat = 53 from rfl]
      omega
  · rintro rfl; decide

theorem lowerAscii_eq_md5_iff (t : String) :
    lowerAscii t = "md5" ↔ t ∈ md5Casings := by
  have hdata : lowerAscii t = "md5" ↔ t.data.map lowerChar = ['m', 'd', '5'] :=
    strMk_eq_iff
  have hmem : t ∈ md5Casings ↔
      (t.data = ['m', 'd', '5'] ∨ t.data = ['M', 'd', '5'] ∨
       t.data = ['m', 'D', '5'] ∨ t.data = ['M', 'D', '5']) := by
    constructor
    · intro h
      have h4 : t = "md5" ∨ t = "Md5" ∨ t = "mD5" ∨ t = "MD5" := by
        simpa [md5Casings] using h
      rcases h4 with rfl | rfl | rfl | rfl
      · exact Or.inl rfl
      · exact Or.inr (Or.inl rfl)
      · exact Or.inr (Or.inr (Or.inl rfl))
      · exact Or.inr (Or.inr (Or.inr rfl))
    · intro h
      rcases h with h | h | h | h
      · rw [String.ext h]; simp [md5Casings]
      · rw [String.ext h]; simp [md5Casings]
      · rw [String.ext h]; simp [md5Casings]
      · rw [String.ext h]; simp [md5Casings]
  rw [hdata, hmem]
  rcases t.data with _ | ⟨a, _ | ⟨b, _ | ⟨c, _ | ⟨d, r⟩⟩⟩⟩
  · simp
  · simp
  · simp
  · simp only [List.map_cons, List.map_nil, List.cons.injEq, and_true]
    rw [lowerChar_eq_m a, lowerChar_eq_d b, lowerChar_eq_5 c]
    constructor
    · rintro ⟨(rfl | rfl), (rfl | rfl), rfl⟩ <;> simp
    · rintro (⟨rfl, rfl, rfl⟩ | ⟨rfl, rfl, rfl⟩ | ⟨rfl, rfl, rfl⟩ | ⟨rfl, rfl, rfl⟩) <;> simp
  · simp

/-! ### Trace facts about the postprocessing phases -/

theorem download_notin_extractPhase (f : Concurrent.file) (w : Concurrent.HWorld)
    (u n : String) : Event.download u n ∉ (Concurrent.extractPhase f w).2 := by
  unfold Concurrent.extractPhase
  rcases Concurrent.extractArgv f.name with _ | argv
  · simp
  · by_cases hc : w.cmdOk argv <;> simp [hc]

theorem download_notin_renameStep (f : Concurrent.file) (w : Concurrent.HWorld)
    (u n : String) : Event.download u n ∉ Concurrent.renameStep f w := by
  unfold Concurrent.renameStep
  rcases f.rename with _ | ⟨a, _ | ⟨b, _ | ⟨x, t⟩⟩⟩
  · simp
  · simp
  · by_cases hw : w.renameOk <;> simp [hw]
  · simp

theorem handleFile_download_iff (f : Concurrent.file) (w : Concurrent.HWorld) :
    Event.download f.url f.name ∈ (Concurrent.handleFile true f w).2 ↔
      w.statOk = false := by
  have hb : (f.browser && !true) = false := by simp
  unfold Concurrent.handleFile
  rw [hb]
  simp only [Bool.false_eq_true, if_false]
  by_cases hs : w.statOk
  · have hf : Concurrent.fetchPhase f w = (none, [Event.statCall f.name]) := by
      unfold Concurrent.fetchPhase
      rw [if_pos hs]
    rw [hf]
    rcases hx : Concurrent.extractPhase f w with ⟨e, evs2⟩
    have hnx : Event.download f.url f.name ∉ evs2 := by
      have := download_notin_extractPhase f w f.url f.name
      rw [hx] at this
      exact this
    have hnr := download_notin_renameStep f w f.url f.name
    cases e <;> simp [hs, List.mem_append, hnx, hnr]
  · have hs' : w.statOk = false := by revert hs; cases w.statOk <;> simp
    have hf : (Concurrent.fetchPhase f w).2 =
        [Event.statCall f.name, Event.download f.url f.name] := by
      unfold Concurrent.fetchPhase
      rw [if_neg hs]
      rcases (Concurrent.downloadFile f w.dl).err with _ | e <;> rfl
    rcases hfp : Concurrent.fetchPhase f w with ⟨e, evs⟩
    have hevs : evs = [Event.statCall f.name, Event.download f.url f.name] := by
      rw [hfp] at hf
      exact hf
    subst hevs
    cases e
    · rcases hx : Concurrent.extractPhase f w with ⟨e2, evs2⟩
      cases e2 <;> simp [hs', List.mem_append]
    · simp [hs']

theorem vendor_renamePhase_tail (f : Vendored.file) (w : Vendored.VWorld)
    (evs : List Event) :
    ∃ tail, (Vendored.renamePhase f w evs).2 = evs ++ tail ∧
      (∀ u n, Event.download u n ∉ tail) ∧ (∀ n, Event.skipDownloadedLog n ∉ tail) := by
  unfold Vendored.renamePhase
  rcases hr : f.rename with _ | ⟨a, _ | ⟨b, _ | ⟨x, t⟩⟩⟩
  · exact ⟨[], by simp, by simp, by simp⟩
  · exact ⟨[], by simp, by simp, by simp⟩
  · by_cases hw : w.renameOk
    · exact ⟨[Event.renameCall a b], by simp [hw], by simp, by simp⟩
    · exact ⟨[Event.renameCall a b, Event.renameWarn a b], by simp [hw], by simp, by simp⟩
  · exact ⟨[], by simp, by simp, by simp⟩

theorem vendor_afterFetch_tail (f : Vendored.file) (w : Vendored.VWorld)
    (evs : List Event) :
    ∃ tail, (Vendored.afterFetch f w evs).2 = evs ++ tail ∧
      (∀ u n, Event.download u n ∉ tail) ∧ (∀ n, Event.skipDownloadedLog n ∉ tail) := by
  unfold Vendored.afterFetch
  rcases hx : Vendored.extractArgv f.name with _ | argv
  · exact vendor_renamePhase_tail f w evs
  · by_cases hu : w.unzipOk
    · obtain ⟨tail, ht, h1, h2⟩ := vendor_renamePhase_tail f w (evs ++ [Event.execRun argv])
      refine ⟨[Event.execRun argv] ++ tail, ?_, ?_, ?_⟩
      · simp only [hu, if_true, ht, List.append_assoc]
      · intro u n
        simp only [List.mem_append, List.mem_singleton]
        rintro (h | h)
        · cases h
        · exact h1 u n h
      · intro n
        simp only [List.mem_append, List.mem_singleton]
        rintro (h | h)
        · cases h
        · exact h2 n h
    · refine ⟨[Event.execRun argv], by simp [hu], by simp, by simp⟩

theorem vendor_download_iff (f : Vendored.file) (w : Vendored.VWorld) :
    (Event.download f.url f.name ∈ (Vendored.mainStep f w).2 ↔
      Vendored.fileSameHash f.name f.hash w = false) ∧
    (Event.skipDownloadedLog f.name ∈ (Vendored.mainStep f w).2 ↔
      Vendored.fileSameHash f.name f.hash w = true) := by
  unfold Vendored.mainStep
  by_cases hh : Vendored.fileSameHash f.name f.hash w
  · obtain ⟨tail, ht, h1, h2⟩ :=
      vendor_afterFetch_tail f w [Event.skipDownloadedLog f.name]
    simp only [hh, if_true, ht]
    constructor
    · simp [List.mem_append, h1 f.url f.name, hh]
    · simp [List.mem_append, hh]
  · have hh' : Vendored.fileSameHash f.name f.hash w = false := by
      revert hh; cases Vendored.fileSameHash f.name f.hash w <;> simp
    simp only [hh', Bool.false_eq_true, if_false]
    rcases hd : Vendored.downloadFile f w.dl with _ | e
    · obtain ⟨tail, ht, h1, h2⟩ :=
        vendor_afterFetch_tail f w [Event.download f.url f.name]
      simp only [ht]
      constructor
      · simp [List.mem_append]
      · simp [List.mem_append, h2 f.name]
    · constructor
      · simp
      · simp

/-! ### Claim theorems -/

/-- C1: contrary to the claim that an empty candidate set after filtering is
a resolution failure and never a panic, `latestGitHubRelease` leaves
`latestRelease` nil when the release list is empty or no tag parses as a
semantic version, and then dereferences it: the resolution panics instead of
returning an error. -/
theorem c1_empty_candidates_panic :
    latestGitHubReleaseM "mozilla" "geckodriver" "-linux64" [] = RunOutcome.panics ∧
    latestGitHubReleaseM "mozilla" "geckodriver" "-linux64"
        [⟨"not-a-version", [some "https://github.example/geckodriver-linux64.tar.gz"]⟩] =
      RunOutcome.panics := by
  exact ⟨by decide, by decide⟩

/-- C2: the sequential binary's `downloadFile` fails a digest mismatch with
an integrity error that carries the computed and the expected digest, is
distinct from the transport errors, and aborts the run (`glog.Exit`); but the
concurrent binary's `downloadFile`, at the same kind of failing input,
computes the digest and never compares it, returning success — so the claim
does not hold of every download with an expected digest. -/
theorem c2_digest_mismatch_divergence :
    (Concurrent.downloadFile
        ⟨"https://chromedriver.storage.googleapis.com/2.31/chromedriver_linux64.zip",
         "chromedriver_2.31_linux64.zip",
         "3e372ef676beb3a03aba72089ec0624bb9d3b52597635f907d4c23390fb485a0", "",
         ["chromedriver", "chromedriver-linux64-2.31"], false⟩
        ⟨true, true, true, true, "00", "deadbeef"⟩ =
      ⟨none, some HashAlg.sha256⟩) ∧
    ("deadbeef" : String) ≠
      "3e372ef676beb3a03aba72089ec0624bb9d3b52597635f907d4c23390fb485a0" ∧
    (Vendored.mainStep
        ⟨"http://selenium-release.storage.googleapis.com/3.0/selenium-server-standalone-3.0.1.jar",
         "selenium-server-standalone-3.0.1.jar",
         "1cce6d3a5ca5b2e32be18ca5107d4f21bddaa9a18700e3b117768f13040b7cf8", []⟩
        ⟨false, false, false, "", ⟨true, true, true, true, "00", "deadbeef"⟩, true, true⟩ =
      (Vendored.StepOut.exitDl
          (Vendored.DlError.integrity "selenium-server-standalone-3.0.1.jar" "deadbeef"
            "1cce6d3a5ca5b2e32be18ca5107d4f21bddaa9a18700e3b117768f13040b7cf8"),
        [Event.download
          "http://selenium-release.storage.googleapis.com/3.0/selenium-server-standalone-3.0.1.jar"
          "selenium-server-standalone-3.0.1.jar"])) ∧
    (Vendored.DlError.integrity "selenium-server-standalone-3.0.1.jar" "deadbeef"
        "1cce6d3a5ca5b2e32be18ca5107d4f21bddaa9a18700e3b117768f13040b7cf8").isTransport
      = false := by
  refine ⟨by decide, by decide, by decide, by decide⟩

/-- C4: `latestSeleniumRelease` resolves to the bucket *object name* (here
`3.8/selenium-server-standalone-3.8.1.jar`), which `main` hands to
`handleFile` as the download URL: the value reaching the download worker
carries no scheme, so it is not an absolute URL, contrary to the claimed
invariant. -/
theorem c4_relative_url_reaches_worker :
    Concurrent.seleniumTask true ["3.8/selenium-server-standalone-3.8.1.jar"]
        ⟨false, "", ⟨true, true, true, true, "", ""⟩, fun _ => true, true⟩ =
      (Concurrent.TaskOut.ran none,
        [Event.statCall "selenium-server-standalone-3.8.1.jar",
         Event.download "3.8/selenium-server-standalone-3.8.1.jar"
           "selenium-server-standalone-3.8.1.jar"]) ∧
    isAbsoluteURL "3.8/selenium-server-standalone-3.8.1.jar" = false := by
  exact ⟨by decide, by decide⟩

/-- C3 counterexample: the concurrent `handleFile` skips the fetch of a
present target whose on-disk digest differs from the expected digest — the
claim's "otherwise the fetch proceeds" fails, since only `os.Stat` is
consulted. -/
theorem c3_counterexample :
    Concurrent.handleFile true
        ⟨"http://selenium-release.storage.googleapis.com/3.4/selenium-server-standalone-3.4.0.jar",
         "selenium-server-standalone-3.4.jar",
         "21cbbd775678821b6b72c208b8d59664a4c7381b3c50b008b331914d2834ec8d", "", [], false⟩
        ⟨true, "deadbeef", ⟨true, true, true, true, "", ""⟩, fun _ => true, true⟩ =
      (none, [Event.statCall "selenium-server-standalone-3.4.jar"]) ∧
    ("deadbeef" : String) ≠
      "21cbbd775678821b6b72c208b8d59664a4c7381b3c50b008b331914d2834ec8d" := by
  exact ⟨by decide, by decide⟩

/-- C3 (amended): the sequential binary skips the fetch — reporting the skip —
exactly when the target exists, opens, reads, and its SHA-256 digest equals
the expected hash; the concurrent binary, by contrast, skips the fetch
exactly when `os.Stat` succeeds, with no digest comparison. -/
theorem c3_amended_skip_conditions :
    (∀ (f : Concurrent.file) (w : Concurrent.HWorld),
      Event.download f.url f.name ∈ (Concurrent.handleFile true f w).2 ↔
        w.statOk = false) ∧
    (∀ (f : Vendored.file) (w : Vendored.VWorld),
      (Event.download f.url f.name ∈ (Vendored.mainStep f w).2 ↔
        Vendored.fileSameHash f.name f.hash w = false) ∧
      (Event.skipDownloadedLog f.name ∈ (Vendored.mainStep f w).2 ↔
        Vendored.fileSameHash f.name f.hash w = true) ∧
      (Vendored.fileSameHash f.name f.hash w = true ↔
        w.statOk = true ∧ w.openOk = true ∧ w.readOk = true ∧
          w.diskSha256Hex = f.hash)) := by
  refine ⟨handleFile_download_iff, fun f w => ⟨(vendor_download_iff f w).1,
    (vendor_download_iff f w).2, ?_⟩⟩
  unfold Vendored.fileSameHash
  simp [Bool.and_eq_true, and_assoc]

theorem selKey_eq_some_iff {nm : String} {v : Version} :
    selKey nm = some v ↔ candOf nm.data = SelCand.ver v := by
  unfold selKey
  cases hc : candOf nm.data <;> simp

/-- C5 counterexample: a listed object parsing to version `0.0.0` — the
strictly greatest (and only) parsed candidate — is never selected, because
the loop starts from the zero version and `GT` is strict: the resolver
reports "no release found" although a candidate parsed. -/
theorem c5_counterexample :
    candOf "selenium-server-standalone-0.0.0.jar".data = SelCand.ver semvZero ∧
    latestSeleniumReleaseM ["selenium-server-standalone-0.0.0.jar"] =
      RunOutcome.error "no release found" := by
  exact ⟨by decide, by decide⟩

/-- C5 (amended): over listings in which no name panics the unguarded slice
(no name has its first occurrence of the filename marker within four bytes of
its end), the resolver considers exactly the names containing the marker,
recovers a version from the slice between the marker and the last four bytes,
skips unparseable ones, and returns the first-listed object whose parsed
version is maximal — provided that maximum exceeds the zero version `0.0.0`,
which can never be selected; with no candidate above `0.0.0` it fails with
"no release found"; and on the spec's example listing it selects
`selenium-server-standalone-3.4.0.jar`. -/
theorem c5_amended_listing_selection :
    (∀ (names : List String),
      (∀ nm ∈ names, candOf nm.data ≠ SelCand.panicC) →
      ((∀ nm ∈ names, ∀ v, candOf nm.data = SelCand.ver v → vGT v semvZero = false) →
          latestSeleniumReleaseM names = RunOutcome.error "no release found") ∧
      ((∃ nm ∈ names, ∃ v, candOf nm.data = SelCand.ver v ∧ vGT v semvZero = true) →
          ∃ l₁ w l₂ vw, names = l₁ ++ w :: l₂ ∧ candOf w.data = SelCand.ver vw ∧
            vGT vw semvZero = true ∧
            (∀ b ∈ l₁, ∀ u, candOf b.data = SelCand.ver u → vCmp u vw = Ordering.lt) ∧
            (∀ b ∈ l₂, ∀ u, candOf b.data = SelCand.ver u → vGT u vw = false) ∧
            latestSeleniumReleaseM names = RunOutcome.ok w)) ∧
    latestSeleniumReleaseM
        ["selenium-server-standalone-2.26.jar", "selenium-server-standalone-3.0.1.jar",
         "selenium-server-standalone-x.jar", "selenium-server-standalone-3.4.0.jar"] =
      RunOutcome.ok "selenium-server-standalone-3.4.0.jar" ∧
    latestSeleniumReleaseM ["selenium-server-standalone-x.jar"] =
      RunOutcome.error "no release found" := by
  refine ⟨?_, by decide, by decide⟩
  intro names hsafe
  have hbridge := selLoop_eq_pick names "" semvZero hsafe
  constructor
  · intro hall
    have hall' : ∀ a ∈ names, ∀ v, selKey a = some v → vGT v semvZero = false := by
      intro a ha v hv
      exact hall a ha v (selKey_eq_some_iff.1 hv)
    unfold latestSeleniumReleaseM
    rw [hbridge, pickLoop_stay selKey names semvZero (liftObj "") hall']
    rfl
  · intro hex
    have hex' : ∃ a ∈ names, ∃ v, selKey a = some v ∧ vGT v semvZero = true := by
      obtain ⟨nm, hnm, v, hc, hgt⟩ := hex
      exact ⟨nm, hnm, v, selKey_eq_some_iff.2 hc, hgt⟩
    obtain ⟨l₁, w, l₂, vw, hsplit, hkw, hgtw, hl1, hl2, heq⟩ :=
      pickLoop_win selKey names semvZero (liftObj "") hex'
    refine ⟨l₁, w, l₂, vw, hsplit, selKey_eq_some_iff.1 hkw, hgtw, ?_, ?_, ?_⟩
    · intro b hb u hu
      exact hl1 b hb u (selKey_eq_some_iff.2 hu)
    · intro b hb u hu
      exact hl2 b hb u (selKey_eq_some_iff.2 hu)
    · unfold latestSeleniumReleaseM
      rw [hbridge, heq]

/-- C5 witness: the amended theorem applied to the concrete one-element
listing whose only candidate fails to parse. -/
theorem c5_amended_witness :
    latestSeleniumReleaseM ["selenium-server-standalone-x.jar"] =
      RunOutcome.error "no release found" := by
  refine (c5_amended_listing_selection.1 ["selenium-server-standalone-x.jar"]
    (by decide)).1 ?_
  intro nm hnm v hv
  have hnm' : nm = "selenium-server-standalone-x.jar" := by simpa using hnm
  rw [hnm'] at hv
  rw [show candOf ("selenium-server-standalone-x.jar").data = SelCand.skip by decide] at hv
  exact SelCand.noConfusion hv

/-- C6 counterexample: a single release tagged `v0.0.0` with a filter-matching
asset: the tag parses (to the zero version), but strict `GT` against the zero
start value selects nothing, and the asset scan then panics on the nil
`latestRelease` instead of returning that release's asset. -/
theorem c6_counterexample :
    ghKey ⟨"v0.0.0", [some "https://gh.example/geckodriver-v0.0.0-linux64.tar.gz"]⟩ =
      some semvZero ∧
    latestGitHubReleaseM "mozilla" "geckodriver" "-linux64"
        [⟨"v0.0.0", [some "https://gh.example/geckodriver-v0.0.0-linux64.tar.gz"]⟩] =
      RunOutcome.panics := by
  exact ⟨by decide, by decide⟩

/-- The release listing of the spec's version-selection example. -/
def c6ExampleRels : List RepoRelease :=
  [⟨"v1.2.0", [some "https://gh.example/geckodriver-v1.2.0-linux64.tar.gz"]⟩,
   ⟨"v1.10.0", [some "https://gh.example/geckodriver-v1.10.0-linux64.tar.gz"]⟩,
   ⟨"not-a-version", [some "https://gh.example/geckodriver-nav-linux64.tar.gz"]⟩,
   ⟨"v1.3.0-rc1", [some "https://gh.example/geckodriver-v1.3.0-rc1-linux64.tar.gz"]⟩]

/-- C6 (amended): whenever some tag parses to a version above `0.0.0`, the
resolver selects the first-listed release whose parsed tag is maximal
(earlier releases parse strictly below it, later ones not above it — ties
keep the first), ignoring unparseable tags, and then returns the first asset
URL containing the filter, or the "not found" error if none does; the zero
version itself can never be selected (see the counterexample, where the scan
panics instead). On the spec's example tags it picks `v1.10.0`'s asset. -/
theorem c6_amended_release_selection :
    (∀ (owner repo flt : String) (rels : List RepoRelease),
      (∃ r ∈ rels, ∃ v, ghKey r = some v ∧ vGT v semvZero = true) →
      ∃ l₁ w l₂ vw, rels = l₁ ++ w :: l₂ ∧ ghKey w = some vw ∧
        vGT vw semvZero = true ∧
        (∀ b ∈ l₁, ∀ u, ghKey b = some u → vCmp u vw = Ordering.lt) ∧
        (∀ b ∈ l₂, ∀ u, ghKey b = some u → vGT u vw = false) ∧
        latestGitHubReleaseM owner repo flt rels =
          (match assetLoop flt w.assets with
           | some u => RunOutcome.ok u
           | none => RunOutcome.error (ghNotFound owner repo flt))) ∧
    latestGitHubReleaseM "mozilla" "geckodriver" "-linux64" c6ExampleRels =
      RunOutcome.ok "https://gh.example/geckodriver-v1.10.0-linux64.tar.gz" ∧
    latestGitHubReleaseM "mozilla" "geckodriver" "-linux64"
        [⟨"v1.0.0", [none, some "https://gh.example/geckodriver-v1.0.0-win32.zip"]⟩] =
      RunOutcome.error (ghNotFound "mozilla" "geckodriver" "-linux64") := by
  refine ⟨?_, by decide, by decide⟩
  intro owner repo flt rels hex
  obtain ⟨l₁, w, l₂, vw, hsplit, hkw, hgtw, hl1, hl2, heq⟩ :=
    pickLoop_win ghKey rels semvZero none hex
  refine ⟨l₁, w, l₂, vw, hsplit, hkw, hgtw, hl1, hl2, ?_⟩
  unfold latestGitHubReleaseM
  rw [heq]

/-- C6 witness: the amended theorem applied to the example release listing. -/
theorem c6_amended_witness :
    ∃ l₁ w l₂ vw, c6ExampleRels = l₁ ++ w :: l₂ ∧ ghKey w = some vw ∧
      vGT vw semvZero = true ∧
      (∀ b ∈ l₁, ∀ u, ghKey b = some u → vCmp u vw = Ordering.lt) ∧
      (∀ b ∈ l₂, ∀ u, ghKey b = some u → vGT u vw = false) ∧
      latestGitHubReleaseM "mozilla" "geckodriver" "-linux64" c6ExampleRels =
        (match assetLoop "-linux64" w.assets with
         | some u => RunOutcome.ok u
         | none => RunOutcome.error (ghNotFound "mozilla" "geckodriver" "-linux64")) :=
  c6_amended_release_selection.1 "mozilla" "geckodriver" "-linux64" c6ExampleRels
    ⟨⟨"v1.2.0", [some "https://gh.example/geckodriver-v1.2.0-linux64.tar.gz"]⟩,
      by decide, ⟨1, 2, 0, []⟩, by decide, by decide⟩

/-- C7 counterexample: in the sequential binary's postprocessor a target
named `file.tar.gz` triggers no extraction step at all — its dispatch handles
only `.zip` — contradicting the claimed closed mapping in which `.gz`
triggers gzip-tar extraction. -/
theorem c7_counterexample :
    Vendored.extractArgv "file.tar.gz" = none ∧
    Vendored.mainStep ⟨"https://example.com/file.tar.gz", "file.tar.gz", "h", []⟩
        ⟨true, true, true, "h", ⟨true, true, true, true, "", ""⟩, true, true⟩ =
      (Vendored.StepOut.completed, [Event.skipDownloadedLog "file.tar.gz"]) := by
  exact ⟨by decide, by decide⟩

/-- C7 (amended): the concurrent binary's extraction dispatch realises the
spec's closed extension mapping exactly (`.zip` → `unzip -o`, `.gz` →
`tar -xzf`, `.bz2` → `tar -xjf`, anything else → no step), purely as a
function of the name's extension; the sequential binary extracts only `.zip`
(via `unzip` without `-o`) and runs no extraction step for any other
extension, including `.gz` and `.bz2`. -/
theorem c7_amended_extension_dispatch :
    (∀ name : String,
      Concurrent.extractArgv name = Option.map (archCommand name) (specExtractKind name)) ∧
    (∀ name : String,
      Vendored.extractArgv name =
        Option.bind (specExtractKind name)
          (fun k => match k with
            | ArchKind.zip => some ["unzip", name]
            | _ => none)) ∧
    Concurrent.extractArgv "file.zip" = some ["unzip", "-o", "file.zip"] ∧
    Concurrent.extractArgv "file.tar.gz" = some ["tar", "-xzf", "file.tar.gz"] ∧
    Concurrent.extractArgv "file.jar" = none := by
  exact ⟨extractArgv_eq_spec, vendorExtractArgv_eq_spec, by decide, by decide, by decide⟩

/-- C8 counterexample: the sequential binary renames without first removing
the destination — its full trace for a descriptor with a rename pair contains
no removal event before the rename — contradicting the claim that the
postprocessor first best-effort-removes the destination path. -/
theorem c8_counterexample :
    Vendored.mainStep
        ⟨"https://chromedriver.storage.googleapis.com/2.26/chromedriver_linux64.zip",
         "chromedriver_linux64.zip",
         "59e6b1b1656a20334d5731b3c5a7400f92a9c6f5043bb4ab67f1ccf1979ee486",
         ["chromedriver", "chromedriver-linux64-2.26"]⟩
        ⟨true, true, true,
         "59e6b1b1656a20334d5731b3c5a7400f92a9c6f5043bb4ab67f1ccf1979ee486",
         ⟨true, true, true, true, "", ""⟩, true, false⟩ =
      (Vendored.StepOut.completed,
        [Event.skipDownloadedLog "chromedriver_linux64.zip",
         Event.execRun ["unzip", "chromedriver_linux64.zip"],
         Event.renameCall "chromedriver" "chromedriver-linux64-2.26",
         Event.renameWarn "chromedriver" "chromedriver-linux64-2.26"]) := by
  decide

/-- C8 (amended): in the concurrent binary the rename step first issues
`os.RemoveAll` on the destination and then `os.Rename`, and a rename failure
is only warned about, the task still returning success once extraction
succeeded; the sequential binary has the same warn-only rename semantics but
renames without any prior removal of the destination. -/
theorem c8_amended_rename_semantics :
    (∀ (f : Concurrent.file) (w : Concurrent.HWorld) (a b : String),
      f.rename = [a, b] → w.statOk = true → (∀ argv, w.cmdOk argv = true) →
      w.renameOk = false →
      (Concurrent.handleFile true f w).1 = none ∧
      ∃ evs, (Concurrent.handleFile true f w).2 =
        evs ++ [Event.removeAll b, Event.renameCall a b, Event.renameWarn a b]) ∧
    (∀ (f : Vendored.file) (w : Vendored.VWorld) (a b : String),
      f.rename = [a, b] → Vendored.fileSameHash f.name f.hash w = true →
      w.unzipOk = true → w.renameOk = false →
      (Vendored.mainStep f w).1 = Vendored.StepOut.completed ∧
      (∀ p, Event.removeAll p ∉ (Vendored.mainStep f w).2) ∧
      ∃ evs, (Vendored.mainStep f w).2 =
        evs ++ [Event.renameCall a b, Event.renameWarn a b]) := by
  constructor
  · intro f w a b hr hs hcmd hren
    have hb : (f.browser && !true) = false := by simp
    have hf : Concurrent.fetchPhase f w = (none, [Event.statCall f.name]) := by
      unfold Concurrent.fetchPhase
      rw [if_pos hs]
    have hrs : Concurrent.renameStep f w =
        [Event.removeAll b, Event.renameCall a b, Event.renameWarn a b] := by
      unfold Concurrent.renameStep
      rw [hr, hren]
      rfl
    unfold Concurrent.handleFile
    rw [hb]
    simp only [Bool.false_eq_true, if_false, hf]
    rcases hx : Concurrent.extractPhase f w with ⟨e2, evs2⟩
    have he2 : e2 = none := by
      have hx1 : (Concurrent.extractPhase f w).1 = none := by
        unfold Concurrent.extractPhase
        rcases hxa : Concurrent.extractArgv f.name with _ | argv
        · simp [hxa]
        · simp [hxa, hcmd argv]
      rw [hx] at hx1
      exact hx1
    subst he2
    refine ⟨rfl, [Event.statCall f.name] ++ evs2, ?_⟩
    show [Event.statCall f.name] ++ evs2 ++ Concurrent.renameStep f w = _
    rw [hrs, List.append_assoc]
  · intro f w a b hr hh hu hren
    have hrp : ∀ evs, Vendored.renamePhase f w evs =
        (Vendored.StepOut.completed,
          evs ++ [Event.renameCall a b, Event.renameWarn a b]) := by
      intro evs
      unfold Vendored.renamePhase
      rw [hr, hren]
      rfl
    unfold Vendored.mainStep
    rw [hh]
    simp only [if_true]
    unfold Vendored.afterFetch
    rcases hxa : Vendored.extractArgv f.name with _ | argv
    · rw [hrp]
      exact ⟨rfl, by intro p; simp, [Event.skipDownloadedLog f.name], rfl⟩
    · rw [hu]
      simp only [if_true]
      rw [hrp]
      refine ⟨rfl, by intro p; simp, [Event.skipDownloadedLog f.name, Event.execRun argv], ?_⟩
      simp

/-- C8 witness: the amended theorem applied to the chromedriver descriptor of
the concurrent binary with the target already present, every extraction
command succeeding, and the rename failing. -/
theorem c8_amended_witness :
    (Concurrent.handleFile true
        ⟨"https://chromedriver.storage.googleapis.com/2.31/chromedriver_linux64.zip",
         "chromedriver_2.31_linux64.zip",
         "3e372ef676beb3a03aba72089ec0624bb9d3b52597635f907d4c23390fb485a0", "",
         ["chromedriver", "chromedriver-linux64-2.31"], false⟩
        ⟨true, "", ⟨true, true, true, true, "", ""⟩, fun _ => true, false⟩).1 = none ∧
    ∃ evs, (Concurrent.handleFile true
        ⟨"https://chromedriver.storage.googleapis.com/2.31/chromedriver_linux64.zip",
         "chromedriver_2.31_linux64.zip",
         "3e372ef676beb3a03aba72089ec0624bb9d3b52597635f907d4c23390fb485a0", "",
         ["chromedriver", "chromedriver-linux64-2.31"], false⟩
        ⟨true, "", ⟨true, true, true, true, "", ""⟩, fun _ => true, false⟩).2 =
      evs ++ [Event.removeAll "chromedriver-linux64-2.31",
        Event.renameCall "chromedriver" "chromedriver-linux64-2.31",
        Event.renameWarn "chromedriver" "chromedriver-linux64-2.31"] :=
  c8_amended_rename_semantics.1 _ _ "chromedriver" "chromedriver-linux64-2.31"
    rfl rfl (fun _ => rfl) rfl

/-- C9: a descriptor marked browser-only is skipped entirely by `handleFile`
when the download-browsers toggle is off — the task returns success with only
the informational log, issuing no fetch, no extraction command, and no
rename, whatever the state of the disk. -/
theorem c9_browser_toggle_skip :
    ∀ (f : Concurrent.file) (w : Concurrent.HWorld), f.browser = true →
      Concurrent.handleFile false f w = (none, [Event.skipBrowserLog f.name]) ∧
      (∀ u n, Event.download u n ∉ (Concurrent.handleFile false f w).2) ∧
      (∀ argv, Event.execRun argv ∉ (Concurrent.handleFile false f w).2) ∧
      (∀ a b, Event.renameCall a b ∉ (Concurrent.handleFile false f w).2) := by
  intro f w hb
  have h : Concurrent.handleFile false f w = (none, [Event.skipBrowserLog f.name]) := by
    unfold Concurrent.handleFile
    rw [hb]
    rfl
  refine ⟨h, ?_, ?_, ?_⟩
  · intro u n
    rw [h]
    simp
  · intro argv
    rw [h]
    simp
  · intro a b
    rw [h]
    simp

/-- C9 witness: the Firefox nightly descriptor (browser-only) with the toggle
off, over a world where the target file is absent. -/
theorem c9_witness :
    Concurrent.handleFile false
        ⟨"https://archive.mozilla.org/pub/firefox/nightly/2017/08/2017-08-21-10-03-50-mozilla-central/firefox-57.0a1.en-US.linux-x86_64.tar.bz2",
         "firefox-57.0a1.en-US.linux-x86_64.tar.bz2",
         "77c57356935f66a5a59b1b2cffeaa53b70204195e6a7b15ee828fd3308561e46", "",
         ["firefox", "firefox-nightly"], true⟩
        ⟨false, "", ⟨true, true, true, true, "", ""⟩, fun _ => true, true⟩ =
      (none, [Event.skipBrowserLog "firefox-57.0a1.en-US.linux-x86_64.tar.bz2"]) :=
  (c9_browser_toggle_skip
    ⟨"https://archive.mozilla.org/pub/firefox/nightly/2017/08/2017-08-21-10-03-50-mozilla-central/firefox-57.0a1.en-US.linux-x86_64.tar.bz2",
     "firefox-57.0a1.en-US.linux-x86_64.tar.bz2",
     "77c57356935f66a5a59b1b2cffeaa53b70204195e6a7b15ee828fd3308561e46", "",
     ["firefox", "firefox-nightly"], true⟩
    ⟨false, "", ⟨true, true, true, true, "", ""⟩, fun _ => true, true⟩ rfl).1

/-- C10: once `downloadFile` reaches the algorithm switch (creation and GET
succeeded), the digest accumulator it selects is MD5 exactly for the four
letter-case variants of `"md5"` and SHA-256 for every other tag — including
the empty string and unrecognized values, which are not rejected. -/
theorem c10_hash_algorithm_selection :
    (∀ (f : Concurrent.file) (w : DWorld), w.createOk = true → w.getOk = true →
      (Concurrent.downloadFile f w).algUsed = some (specAlg f.hashType)) ∧
    specAlg "md5" = HashAlg.md5 ∧ specAlg "MD5" = HashAlg.md5 ∧
    specAlg "mD5" = HashAlg.md5 ∧ specAlg "Md5" = HashAlg.md5 ∧
    specAlg "" = HashAlg.sha256 ∧ specAlg "sha1" = HashAlg.sha256 ∧
    specAlg "SHA256" = HashAlg.sha256 := by
  refine ⟨?_, by decide, by decide, by decide, by decide, by decide, by decide, by decide⟩
  intro f w hc hg
  have halg : (if lowerAscii f.hashType = "md5" then HashAlg.md5 else HashAlg.sha256) =
      specAlg f.hashType := by
    unfold specAlg
    by_cases h : lowerAscii f.hashType = "md5"
    · rw [if_pos h, if_pos ((lowerAscii_eq_md5_iff _).1 h)]
    · rw [if_neg h, if_neg (fun hm => h ((lowerAscii_eq_md5_iff _).2 hm))]
  unfold Concurrent.downloadFile
  rw [hc, hg]
  by_cases hcp : w.copyOk <;> by_cases hcl : w.closeOk <;>
    simp [hcp, hcl, halg, Concurrent.DlResult.algUsed]

/-- C10 witness: the selection theorem applied to the dynamically-added
Chrome descriptor, whose hash type is `"md5"`. -/
theorem c10_witness :
    (Concurrent.downloadFile
        ⟨"https://storage.example/chromium/chrome-linux.zip", "chrome-linux.zip",
         "9af59b5e9293d34e59e07b2d19cb39dc", "md5", [], true⟩
        ⟨true, true, true, true, "9af59b5e9293d34e59e07b2d19cb39dc", "77c5"⟩).algUsed =
      some (specAlg "md5") :=
  c10_hash_algorithm_selection.1
    ⟨"https://storage.example/chromium/chrome-linux.zip", "chrome-linux.zip",
     "9af59b5e9293d34e59e07b2d19cb39dc", "md5", [], true⟩
    ⟨true, true, true, true, "9af59b5e9293d34e59e07b2d19cb39dc", "77c5"⟩ rfl rfl
